import Mathlib

/-!
Shallow embedding of the story segmentation, duration-estimation and
safe-area positioning logic of the UGCVidGen repository
(`src/scripts/story_generator.py` and `src/scripts/utils.py`).

Python strings are modelled as lists of characters (`Str`); Python's
`str.split`, `str.strip`, `str.replace` and `int()` are modelled by the
executable Lean functions below, and Python floats by rationals.
-/

/-- A Python string, modelled as its list of characters. -/
abbrev Str := List Char

/-- The whitespace test used by Python's `str.split()` / `str.strip()`:
space, tab, newline, carriage return, vertical tab, form feed. -/
def pyIsSpace (c : Char) : Bool :=
  c == ' ' || c == '\t' || c == '\n' || c == '\r' || c == '\x0b' || c == '\x0c'

/-- Worker for Python's `str.split()` with no separator.  `acc` is the
current run of non-whitespace characters, kept in reverse order. -/
def wordsAux : Str → Str → List Str
  | acc, [] => if acc.isEmpty then [] else [acc.reverse]
  | acc, c :: cs =>
    if pyIsSpace c then
      if acc.isEmpty then wordsAux [] cs else acc.reverse :: wordsAux [] cs
    else
      wordsAux (c :: acc) cs

/-- Python `s.split()`: the whitespace-delimited tokens of `s`, in order,
with no empty tokens. -/
def pyWords (s : Str) : List Str := wordsAux [] s

/-- Python `s.split(sep)` for a one-character separator: cut at every
occurrence of `sep`, keeping empty pieces. -/
def splitChar (sep : Char) : Str → List Str
  | [] => [[]]
  | c :: cs =>
    if c == sep then [] :: splitChar sep cs
    else
      match splitChar sep cs with
      | [] => [[c]]
      | q :: qs => (c :: q) :: qs

/-- Python `s.strip()`: drop leading and trailing whitespace. -/
def pyStrip (s : Str) : Str :=
  ((s.dropWhile pyIsSpace).reverse.dropWhile pyIsSpace).reverse

/-- Python `story_text.replace('\n\n', '\n')` (story_generator.py line 101):
left-to-right, non-overlapping replacement of double newlines. -/
def replaceNlNl : Str → Str
  | '\n' :: '\n' :: cs => '\n' :: replaceNlNl cs
  | c :: cs => c :: replaceNlNl cs
  | [] => []

/-- Python `int()` applied to a float: truncation toward zero. -/
def pyTrunc (q : ℚ) : ℤ := if 0 ≤ q then ⌊q⌋ else ⌈q⌉

/-- A sentence-ending character of the regex `(?<=[.!?])\s+`. -/
def isSentEnd (c : Char) : Bool := c == '.' || c == '!' || c == '?'

/-- Worker for `sentSplit`.  When `skip` is true we are consuming the
(maximal) whitespace run that follows a sentence-ending character. -/
def sentSplitAux : Bool → Str → List Str
  | _, [] => [[]]
  | skip, c :: cs =>
    if skip && pyIsSpace c then sentSplitAux true cs
    else if isSentEnd c && (match cs.head? with | some d => pyIsSpace d | none => false) then
      [c] :: sentSplitAux true cs
    else
      match sentSplitAux false cs with
      | [] => [[c]]
      | q :: qs => (c :: q) :: qs

/-- `re.split(r'(?<=[.!?])\s+', text)` (story_generator.py line 194): cut
after every `.`, `!` or `?` that is followed by whitespace, consuming the
whitespace run. -/
def sentSplit (s : Str) : List Str := sentSplitAux false s

/-- The word-joining step used throughout `segment_story`:
`joinSep sep [a, b, c] = a ++ sep ++ b ++ sep ++ c`. -/
def joinSep (sep : Str) : List Str → Str
  | [] => []
  | [p] => p
  | p :: q :: rest => p ++ sep ++ joinSep sep (q :: rest)

/-! ## The segmenter (`story_generator.py`) -/

/-- The greedy word-accumulation loop of `segment_by_chars`
(story_generator.py lines 207–226).  `current` is the running segment;
the `[]` case is the trailing `if current: result.append(current)`. -/
def segCharsLoop (maxChars : ℕ) : Str → List Str → List Str
  | current, [] => if current.isEmpty then [] else [current]
  | current, w :: ws =>
    let test := current ++ (if current.isEmpty then [] else [' ']) ++ w
    if test.length ≤ maxChars then segCharsLoop maxChars test ws
    else (if current.isEmpty then [] else [current]) ++ segCharsLoop maxChars w ws

/-- `segment_by_chars(text, max_chars)` (story_generator.py lines 207–226). -/
def segment_by_chars (maxChars : ℕ) (text : Str) : List Str :=
  segCharsLoop maxChars [] (pyWords text)

/-- `segment_by_sentences(text, max_chars)` (story_generator.py
lines 191–205): sentences of at most `maxChars` characters are kept,
longer ones are re-split by `segment_by_chars`. -/
def segment_by_sentences (maxChars : ℕ) (text : Str) : List Str :=
  (sentSplit text).flatMap fun s =>
    if s.length ≤ maxChars then [s] else segment_by_chars maxChars s

/-- The short-paragraph coalescing loop of `segment_story`
(story_generator.py lines 112–147), including the trailing
`if current_paragraph: combined_paragraphs.append(current_paragraph)`.
`current` is `current_paragraph`; the one-element case is the last loop
iteration (`i == len(filtered_paragraphs) - 1`).  Note that in the
"last paragraph too short, current non-empty" branch the source appends
`current_paragraph` without resetting it, so the trailing flush appends
the same string a second time. -/
def combineLoop (minLen : ℕ) : Str → List Str → List Str
  | current, [] => if current.isEmpty then [] else [current]
  | current, [p] =>
    if p.length < minLen then
      if current.isEmpty then [p]
      else [current ++ ' ' :: p, current ++ ' ' :: p]
    else
      (if current.isEmpty then [] else [current]) ++ [p]
  | current, p :: q :: rest =>
    if p.length < minLen then
      combineLoop minLen (if current.isEmpty then p else current ++ ' ' :: p) (q :: rest)
    else
      (if current.isEmpty then [] else [current]) ++ p :: combineLoop minLen [] (q :: rest)

/-- The whole coalescing pass over the filtered paragraphs
(story_generator.py lines 112–147). -/
def combine_short_paragraphs (minLen : ℕ) (ps : List Str) : List Str :=
  combineLoop minLen [] ps

/-- The `STORY_CONFIG` settings consulted by `segment_story`
(`config.py`; defaults shown in parentheses): `use_paragraphs_as_segments`
(true), `one_sentence_per_segment` (false), `minimum_segment_length` (130),
`max_chars_per_segment` (500). -/
structure StoryConfig where
  use_paragraphs_as_segments : Bool
  one_sentence_per_segment : Bool
  minimum_segment_length : ℕ
  max_chars_per_segment : ℕ
deriving DecidableEq

/-- The per-paragraph dispatch of `segment_story` (story_generator.py
lines 156–168): a combined paragraph of at most `max_chars_per_segment`
characters is kept whole, a longer one is re-segmented by sentences or by
the char budget. -/
def paragraphSegments (cfg : StoryConfig) (p : Str) : List Str :=
  if p.length ≤ cfg.max_chars_per_segment then [p]
  else if cfg.one_sentence_per_segment then
    segment_by_sentences cfg.max_chars_per_segment p
  else
    segment_by_chars cfg.max_chars_per_segment p

/-- `segment_story(story_text, max_chars)` (story_generator.py
lines 72–189), with the `STORY_CONFIG` reads made explicit. -/
def segment_story (cfg : StoryConfig) (storyText : Str) : List Str :=
  if cfg.use_paragraphs_as_segments ∧ '\n' ∈ storyText then
    let paragraphs := splitChar '\n' (replaceNlNl storyText)
    let filtered := (paragraphs.map pyStrip).filter (fun p => !p.isEmpty)
    let combined := combine_short_paragraphs cfg.minimum_segment_length filtered
    combined.flatMap (paragraphSegments cfg)
  else if cfg.one_sentence_per_segment then
    segment_by_sentences cfg.max_chars_per_segment storyText
  else
    segment_by_chars cfg.max_chars_per_segment storyText

/-- A string with no leading and no trailing whitespace. -/
def pyIsTrimmed (s : Str) : Prop :=
  (∀ c, s.head? = some c → pyIsSpace c = false) ∧
  (∀ c, s.reverse.head? = some c → pyIsSpace c = false)

/-- Worker for `combineShortSpec`; `run` is the list of consecutive
too-short paragraphs accumulated so far. -/
def combineSpecAux (minLen : ℕ) : List Str → List Str → List Str
  | run, [] => if run.isEmpty then [] else [joinSep [' '] run]
  | run, [p] =>
    if p.length < minLen then
      if run.isEmpty then [p]
      else [joinSep [' '] (run ++ [p]), joinSep [' '] (run ++ [p])]
    else
      (if run.isEmpty then [] else [joinSep [' '] run]) ++ [p]
  | run, p :: q :: rest =>
    if p.length < minLen then combineSpecAux minLen (run ++ [p]) (q :: rest)
    else (if run.isEmpty then [] else [joinSep [' '] run]) ++ p :: combineSpecAux minLen [] (q :: rest)

/-- Modelled from the amended claim C2: the coalescing pass joins each
maximal run of consecutive too-short paragraphs with single spaces; a run
followed by a long-enough paragraph is emitted as its own segment
immediately before that paragraph (it is not merged into it); a too-short
final paragraph joins the preceding run when one exists — and the combined
run is then emitted twice — otherwise it is emitted as-is. -/
def combineShortSpec (minLen : ℕ) (ps : List Str) : List Str :=
  combineSpecAux minLen [] ps

/-! ## The duration estimator (`story_generator.py` lines 228–240) -/

/-- `calculate_segment_duration(segment, wpm)`: word count over reading
speed, clamped to the configured bounds.  `wpm`, `minDuration` and
`maxDuration` stand for the Python floats. -/
def calculate_segment_duration (wpm minDuration maxDuration : ℚ) (segment : Str) : ℚ :=
  let wordCount : ℚ := (pyWords segment).length
  let duration := wordCount / wpm * 60
  max minDuration (min duration maxDuration)

/-! ## The safe-area positioner (`utils.py` lines 266–311) -/

/-- The `tiktok_margins` dictionary: pixel insets from each frame edge. -/
structure TikTokMargins where
  top : ℤ
  bottom : ℤ
  left : ℤ
  right : ℤ

/-- `position_text_in_tiktok_safe_area(text_clip, tiktok_margins,
target_resolution, position_factor)` (utils.py lines 266–311), returning
the `(x, y)` coordinates passed to `set_position`.  `textW`/`textH` are
the measured clip size, `resW`/`resH` the target resolution; the `x`
coordinate is a Python float, the `y` coordinate an `int`. -/
def position_text_in_tiktok_safe_area (textW textH : ℤ) (m : TikTokMargins)
    (resW resH : ℤ) (positionFactor : ℚ) : ℚ × ℤ :=
  let safeTop := m.top
  let safeBottom := resH - m.bottom
  let safeLeft := m.left
  let safeRight := resW - m.right
  let safeHeight := safeBottom - safeTop
  let safeWidth := safeRight - safeLeft
  let yPosition := pyTrunc ((safeTop : ℚ) + (safeHeight : ℚ) * positionFactor)
  let maxY := safeBottom - textH
  let yClamped := min maxY (max safeTop yPosition)
  let xPosition : ℚ := (safeLeft : ℚ) + ((safeWidth : ℚ) - (textW : ℚ)) / 2
  (xPosition, yClamped)

/-! ## The title-card font-shrink correction (`story_generator.py`
lines 659–710) -/

/-- `content_spacing = max(100, int(title_fontsize * 1.2))`
(story_generator.py line 660). -/
def contentSpacingOf (titleFontsize : ℤ) : ℤ :=
  max 100 (pyTrunc ((titleFontsize : ℚ) * ((12 : ℚ) / 10)))

/-- The single-pass overflow correction applied to the combined
title + first-segment card in `create_story_video`.  `measure fs` is the
external text-measurement collaborator: the rendered content height at
body font size `fs`.  `shadowOffset` is the title shadow offset used in
the first total-height computation (line 661); `shadowOffset2` is the
value the `shadow_offset` variable holds at the re-computation on
line 709 (it is reassigned to the body shadow offset when body shadows
are enabled, and unchanged otherwise).  Returns the final body font size
and the final total height; no further shrink pass follows. -/
def adjust_content_fontsize (measure : ℤ → ℤ) (titleHeight shadowOffset shadowOffset2 : ℤ)
    (titleFontsize bodyFontsize : ℤ) (safeHeight : ℤ) : ℤ × ℤ :=
  let contentSpacing := contentSpacingOf titleFontsize
  let totalHeight := titleHeight + contentSpacing + measure bodyFontsize + shadowOffset
  let maxAllowedHeight : ℚ := (safeHeight : ℚ) * 1
  if maxAllowedHeight < (totalHeight : ℚ) then
    let reductionFactor : ℚ :=
      max ((8 : ℚ) / 10) (1 - ((5 : ℚ) / 10) * ((totalHeight : ℚ) - maxAllowedHeight) / maxAllowedHeight)
    let adjustedFontsize := max (pyTrunc ((bodyFontsize : ℚ) * reductionFactor)) 45
    (adjustedFontsize, titleHeight + contentSpacing + measure adjustedFontsize + shadowOffset2)
  else
    (bodyFontsize, totalHeight)

/-- Modelled from claim C9's words: the shrunk body font size is the old
size times the factor `max(0.8, 1.0 - 0.5 * (excess / safe_height))`
(where `excess = total_height - safe_height`), floored at the fixed
minimum font size of 45. -/
def claimedAdjustedFontsize (bodyFontsize totalHeight safeHeight : ℤ) : ℤ :=
  max (pyTrunc ((bodyFontsize : ℚ) *
    max ((8 : ℚ) / 10)
      (1 - ((5 : ℚ) / 10) * (((totalHeight - safeHeight : ℤ) : ℚ) / (safeHeight : ℚ))))) 45

/-! ## Lemmas about the word splitter -/

theorem wordsAux_mem {s : Str} : ∀ {acc : Str}, (∀ c ∈ acc, pyIsSpace c = false) →
    ∀ w ∈ wordsAux acc s, w ≠ [] ∧ ∀ c ∈ w, pyIsSpace c = false := by
  induction s with
  | nil =>
    intro acc hacc w hw
    simp only [wordsAux] at hw
    split at hw
    · simp at hw
    · rename_i hne
      simp only [List.mem_singleton] at hw
      subst hw
      refine ⟨by simpa [List.isEmpty_iff] using hne, ?_⟩
      intro c hc
      exact hacc c (List.mem_reverse.mp hc)
  | cons c cs ih =>
    intro acc hacc w hw
    simp only [wordsAux] at hw
    split at hw
    · split at hw
      · exact ih (by simp) w hw
      · rename_i hne
        rcases List.mem_cons.mp hw with h | h
        · subst h
          refine ⟨by simpa [List.isEmpty_iff] using hne, ?_⟩
          intro d hd
          exact hacc d (List.mem_reverse.mp hd)
        · exact ih (by simp) w h
    · rename_i hcs
      refine ih ?_ w hw
      intro d hd
      rcases List.mem_cons.mp hd with h | h
      · subst h; simpa using hcs
      · exact hacc d h

theorem pyWords_mem_ne_nil {s w : Str} (h : w ∈ pyWords s) : w ≠ [] :=
  (wordsAux_mem (by simp) w h).1

theorem pyWords_mem_noSpace {s w : Str} (h : w ∈ pyWords s) :
    ∀ c ∈ w, pyIsSpace c = false :=
  (wordsAux_mem (by simp) w h).2

theorem wordsAux_append_space {w : Char} (hw : pyIsSpace w = true) (b : Str) :
    ∀ (a acc : Str), wordsAux acc (a ++ w :: b) = wordsAux acc a ++ wordsAux [] b := by
  intro a
  induction a with
  | nil =>
    intro acc
    simp only [List.nil_append, wordsAux, hw]
    by_cases hacc : acc.isEmpty <;> simp [hacc, wordsAux]
  | cons c cs ih =>
    intro acc
    simp only [List.cons_append, wordsAux]
    by_cases hc : pyIsSpace c
    · simp only [hc, if_true]
      by_cases hacc : acc.isEmpty <;> simp [hacc, ih]
    · simp [hc, ih]

theorem pyWords_append_space {w : Char} (hw : pyIsSpace w = true) (a b : Str) :
    pyWords (a ++ w :: b) = pyWords a ++ pyWords b :=
  wordsAux_append_space hw b a []

theorem wordsAux_all_space {s : Str} (h : ∀ c ∈ s, pyIsSpace c = true) :
    ∀ acc, wordsAux acc s = if acc.isEmpty then [] else [acc.reverse] := by
  induction s with
  | nil => intro acc; rfl
  | cons c cs ih =>
    intro acc
    have hc : pyIsSpace c = true := h c (by simp)
    have hcs : ∀ d ∈ cs, pyIsSpace d = true := fun d hd => h d (by simp [hd])
    simp only [wordsAux, hc, if_true]
    by_cases hacc : acc.isEmpty <;> simp [hacc, ih hcs]

theorem pyWords_all_space {s : Str} (h : ∀ c ∈ s, pyIsSpace c = true) :
    pyWords s = [] := by
  simpa [pyWords] using wordsAux_all_space h []

theorem wordsAux_all_nonspace {s : Str} (h : ∀ c ∈ s, pyIsSpace c = false) :
    ∀ acc, wordsAux acc s =
      if (acc.reverse ++ s).isEmpty then [] else [acc.reverse ++ s] := by
  induction s with
  | nil => intro acc; simp [wordsAux, List.isEmpty_iff]
  | cons c cs ih =>
    intro acc
    have hc : pyIsSpace c = false := h c (by simp)
    have hcs : ∀ d ∈ cs, pyIsSpace d = false := fun d hd => h d (by simp [hd])
    simp only [wordsAux, hc, if_false, Bool.false_eq_true, ih hcs]
    simp [List.isEmpty_iff]

theorem pyWords_single_word {s : Str} (hne : s ≠ [])
    (h : ∀ c ∈ s, pyIsSpace c = false) : pyWords s = [s] := by
  simpa [pyWords, List.isEmpty_iff, hne] using wordsAux_all_nonspace h []

/-! ## Lemmas about joining and splitting -/

theorem joinSep_ne_nil {sep : Str} : ∀ {ps : List Str}, ps ≠ [] →
    (∀ p ∈ ps, p ≠ []) → joinSep sep ps ≠ [] := by
  intro ps
  match ps with
  | [] => intro h; exact absurd rfl h
  | [p] => intro _ hp; simpa [joinSep] using hp p (by simp)
  | p :: q :: rest =>
    intro _ hp
    have : p ≠ [] := hp p (by simp)
    simp [joinSep, this]

theorem joinSep_append_singleton {w : Str} : ∀ {ps : List Str}, ps ≠ [] →
    joinSep [' '] (ps ++ [w]) = joinSep [' '] ps ++ ' ' :: w := by
  intro ps
  induction ps with
  | nil => intro h; exact absurd rfl h
  | cons p rest ih =>
    intro _
    cases rest with
    | nil => simp [joinSep]
    | cons q t =>
      have h2 := ih (by simp)
      simp only [List.cons_append, List.append_eq, joinSep] at h2 ⊢
      rw [h2]
      simp

theorem pyWords_joinSep {sep : Char} (hsep : pyIsSpace sep = true) :
    ∀ pieces : List Str, pyWords (joinSep [sep] pieces) = pieces.flatMap pyWords := by
  intro pieces
  induction pieces with
  | nil => simp [joinSep, pyWords, wordsAux]
  | cons p rest ih =>
    cases rest with
    | nil => simp [joinSep]
    | cons q t =>
      simp only [joinSep, List.flatMap_cons]
      rw [List.append_assoc, List.singleton_append, pyWords_append_space hsep, ih]
      simp [List.flatMap_cons]

theorem pyWords_joinSep_words {chunk : List Str}
    (h : ∀ w ∈ chunk, w ≠ [] ∧ ∀ c ∈ w, pyIsSpace c = false) :
    pyWords (joinSep [' '] chunk) = chunk := by
  rw [pyWords_joinSep (by rfl)]
  induction chunk with
  | nil => simp
  | cons w rest ih =>
    have hw := h w (by simp)
    rw [List.flatMap_cons, pyWords_single_word hw.1 hw.2,
      ih (fun v hv => h v (by simp [hv]))]
    simp

theorem splitChar_ne_nil (sep : Char) : ∀ s : Str, splitChar sep s ≠ [] := by
  intro s
  cases s with
  | nil => simp [splitChar]
  | cons c cs =>
    simp only [splitChar]
    split
    · simp
    · split <;> simp

theorem joinSep_splitChar (sep : Char) : ∀ s : Str, joinSep [sep] (splitChar sep s) = s := by
  intro s
  induction s with
  | nil => simp [splitChar, joinSep]
  | cons c cs ih =>
    simp only [splitChar]
    by_cases hc : c == sep
    · simp only [hc, if_true]
      have h1 : splitChar sep cs ≠ [] := splitChar_ne_nil sep cs
      obtain ⟨q, qs, hqs⟩ := List.exists_cons_of_ne_nil h1
      rw [hqs] at ih ⊢
      simp only [joinSep, List.nil_append, List.singleton_append]
      rw [ih]
      simpa using (beq_iff_eq.mp hc).symm
    · simp only [hc, if_false, Bool.false_eq_true]
      have h1 : splitChar sep cs ≠ [] := splitChar_ne_nil sep cs
      obtain ⟨q, qs, hqs⟩ := List.exists_cons_of_ne_nil h1
      rw [hqs] at ih ⊢
      cases qs with
      | nil => simpa [joinSep] using ih
      | cons q2 t =>
        simp only [joinSep, List.cons_append] at ih ⊢
        rw [← ih]

theorem flatMap_pyWords_splitChar {sep : Char} (hsep : pyIsSpace sep = true) (s : Str) :
    (splitChar sep s).flatMap pyWords = pyWords s := by
  conv_rhs => rw [← joinSep_splitChar sep s]
  rw [pyWords_joinSep hsep]

theorem wordsAux_replaceNlNl : ∀ (s : Str) (acc : Str),
    wordsAux acc (replaceNlNl s) = wordsAux acc s := by
  intro s
  induction s using replaceNlNl.induct with
  | case1 cs ih =>
    intro acc
    have hnl : pyIsSpace '\n' = true := by decide
    simp only [replaceNlNl, wordsAux, hnl, if_true]
    by_cases hacc : acc.isEmpty <;> simp [hacc, wordsAux, hnl, ih]
  | case2 c cs hne ih =>
    intro acc
    simp only [replaceNlNl, wordsAux]
    by_cases hc : pyIsSpace c
    · simp only [hc, if_true]
      by_cases hacc : acc.isEmpty <;> simp [hacc, ih]
    · simp [hc, ih]
  | case3 => intro acc; rfl

theorem pyWords_replaceNlNl (s : Str) : pyWords (replaceNlNl s) = pyWords s :=
  wordsAux_replaceNlNl s []

/-! ## Lemmas about stripping -/

theorem dropWhile_head_false {p : Char → Bool} :
    ∀ {l : Str} {c : Char} {t : Str}, l.dropWhile p = c :: t → p c = false := by
  intro l
  induction l with
  | nil => intro c t h; simp [List.dropWhile] at h
  | cons a l' ih =>
    intro c t h
    by_cases ha : p a
    · rw [List.dropWhile_cons_of_pos ha] at h
      exact ih h
    · rw [List.dropWhile_cons_of_neg ha] at h
      cases h
      simpa using ha

theorem pyWords_dropWhile_space (s : Str) :
    pyWords (s.dropWhile pyIsSpace) = pyWords s := by
  induction s with
  | nil => rfl
  | cons c cs ih =>
    by_cases hc : pyIsSpace c
    · rw [List.dropWhile_cons_of_pos hc]
      rw [ih]
      simp [pyWords, wordsAux, hc]
    · rw [List.dropWhile_cons_of_neg hc]

theorem pyWords_append_all_space {s t : Str} (h : ∀ c ∈ t, pyIsSpace c = true) :
    pyWords (s ++ t) = pyWords s := by
  cases t with
  | nil => simp
  | cons w t' =>
    have h2 : pyWords t' = [] :=
      pyWords_all_space (fun c hc => h c (List.mem_cons_of_mem w hc))
    rw [pyWords_append_space (h w (by simp)) s t', h2]
    simp

theorem pyStrip_decomp (s : Str) :
    ∃ t : Str, s.dropWhile pyIsSpace = pyStrip s ++ t ∧ ∀ c ∈ t, pyIsSpace c = true := by
  refine ⟨((s.dropWhile pyIsSpace).reverse.takeWhile pyIsSpace).reverse, ?_, ?_⟩
  · conv_lhs => rw [← List.reverse_reverse (s.dropWhile pyIsSpace),
      ← List.takeWhile_append_dropWhile pyIsSpace (s.dropWhile pyIsSpace).reverse]
    rw [List.reverse_append]
    rfl
  · intro c hc
    exact List.mem_takeWhile_imp (List.mem_reverse.mp hc)

theorem pyWords_pyStrip (s : Str) : pyWords (pyStrip s) = pyWords s := by
  obtain ⟨t, ht, hws⟩ := pyStrip_decomp s
  rw [← pyWords_dropWhile_space s, ht, pyWords_append_all_space hws]

theorem pyStrip_trimmed (s : Str) : pyIsTrimmed (pyStrip s) := by
  constructor
  · intro c hc
    obtain ⟨t, ht, _⟩ := pyStrip_decomp s
    have hne : pyStrip s ≠ [] := by
      intro h
      rw [h] at hc
      simp at hc
    have : (s.dropWhile pyIsSpace).head? = some c := by
      rw [ht, List.head?_append_of_ne_nil _ hne, hc]
    obtain ⟨u, hu⟩ : ∃ u, s.dropWhile pyIsSpace = c :: u := by
      cases hd : s.dropWhile pyIsSpace with
      | nil => rw [hd] at this; simp at this
      | cons a u => rw [hd] at this; simp at this; exact ⟨u, by rw [this]⟩
    exact dropWhile_head_false hu
  · intro c hc
    have : (pyStrip s).reverse = ((s.dropWhile pyIsSpace).reverse.dropWhile pyIsSpace) := by
      simp [pyStrip]
    rw [this] at hc
    cases hd : (s.dropWhile pyIsSpace).reverse.dropWhile pyIsSpace with
    | nil => rw [hd] at hc; simp at hc
    | cons a u =>
      rw [hd] at hc
      simp only [List.head?_cons, Option.some.injEq] at hc
      rw [← hc]
      exact dropWhile_head_false hd

theorem pyStrip_all_space {s : Str} (h : ∀ c ∈ s, pyIsSpace c = true) :
    pyStrip s = [] := by
  have : s.dropWhile pyIsSpace = [] := List.dropWhile_eq_nil_iff.mpr (fun a ha => h a ha)
  simp [pyStrip, this]

theorem mem_splitChar {sep : Char} :
    ∀ {s p : Str} {c : Char}, p ∈ splitChar sep s → c ∈ p → c ∈ s := by
  intro s
  induction s with
  | nil =>
    intro p c hp hc
    simp [splitChar] at hp
    subst hp
    simp at hc
  | cons a cs ih =>
    intro p c hp hc
    simp only [splitChar] at hp
    split at hp
    · rcases List.mem_cons.mp hp with h | h
      · subst h; simp at hc
      · exact List.mem_cons_of_mem a (ih h hc)
    · rename_i ha
      obtain ⟨q, qs, hqs⟩ := List.exists_cons_of_ne_nil (splitChar_ne_nil sep cs)
      rw [hqs] at hp
      rcases List.mem_cons.mp hp with h | h
      · subst h
        rcases List.mem_cons.mp hc with h' | h'
        · subst h'; simp
        · exact List.mem_cons_of_mem a (ih (by rw [hqs]; simp) h')
      · exact List.mem_cons_of_mem a (ih (by rw [hqs]; exact List.mem_cons_of_mem q h) hc)

theorem mem_replaceNlNl : ∀ {s : Str} {c : Char}, c ∈ replaceNlNl s → c ∈ s := by
  intro s
  induction s using replaceNlNl.induct with
  | case1 cs ih =>
    intro c hc
    simp only [replaceNlNl] at hc
    rcases List.mem_cons.mp hc with h | h
    · subst h; simp
    · exact List.mem_cons_of_mem _ (List.mem_cons_of_mem _ (ih h))
  | case2 a cs hne ih =>
    intro c hc
    simp only [replaceNlNl] at hc
    rcases List.mem_cons.mp hc with h | h
    · subst h; simp
    · exact List.mem_cons_of_mem a (ih h)
  | case3 =>
    intro c hc
    simp [replaceNlNl] at hc

/-! ## Lemmas about the greedy char-budget loop -/

theorem head?_mem {l : Str} {c : Char} (h : l.head? = some c) : c ∈ l := by
  cases l with
  | nil => simp at h
  | cons a t =>
    simp only [List.head?_cons, Option.some.injEq] at h
    subst h
    simp

theorem joinSep_clean : ∀ {chunk : List Str}, chunk ≠ [] →
    (∀ w ∈ chunk, w ≠ [] ∧ ∀ c ∈ w, pyIsSpace c = false) →
    joinSep [' '] chunk ≠ [] ∧ pyIsTrimmed (joinSep [' '] chunk) := by
  intro chunk
  induction chunk with
  | nil => intro h; exact absurd rfl h
  | cons w rest ih =>
    intro _ hclean
    have hw := hclean w (by simp)
    refine ⟨joinSep_ne_nil (by simp) (fun p hp => (hclean p hp).1), ?_, ?_⟩
    · intro c hc
      have hcw : c ∈ w := by
        cases rest with
        | nil => exact head?_mem hc
        | cons q t =>
          simp only [joinSep, List.append_assoc] at hc
          rw [List.head?_append_of_ne_nil _ hw.1] at hc
          exact head?_mem hc
      exact hw.2 c hcw
    · intro c hc
      cases rest with
      | nil =>
        exact hw.2 c (List.mem_reverse.mp (head?_mem hc))
      | cons q t =>
        have hrest : joinSep [' '] (q :: t) ≠ [] :=
          joinSep_ne_nil (by simp) (fun p hp => (hclean p (List.mem_cons_of_mem w hp)).1)
        have ihr := ih (by simp) (fun p hp => hclean p (List.mem_cons_of_mem w hp))
        simp only [joinSep, List.reverse_append] at hc
        rw [List.head?_append_of_ne_nil _ (by simpa [List.reverse_eq_nil_iff] using hrest)] at hc
        exact ihr.2.2 c hc

theorem segCharsLoop_chunks (maxc : ℕ) :
    ∀ (ws : List Str) (acc : List Str), acc ≠ [] → (∀ v ∈ acc, v ≠ []) →
      (∀ v ∈ ws, v ≠ []) →
      ∃ (c₁ : List Str) (chunks : List (List Str)),
        c₁ ++ chunks.flatten = ws ∧ (∀ c ∈ chunks, c ≠ []) ∧
        segCharsLoop maxc (joinSep [' '] acc) ws
          = joinSep [' '] (acc ++ c₁) :: chunks.map (joinSep [' ']) := by
  intro ws
  induction ws with
  | nil =>
    intro acc hacc hne _
    refine ⟨[], [], by simp, by simp, ?_⟩
    have h1 : joinSep [' '] acc ≠ [] := joinSep_ne_nil hacc hne
    simp [segCharsLoop, List.isEmpty_iff, h1]
  | cons w ws' ih =>
    intro acc hacc hne hws
    have hcurne : joinSep [' '] acc ≠ [] := joinSep_ne_nil hacc hne
    have hwne : w ≠ [] := hws w (by simp)
    have hws' : ∀ v ∈ ws', v ≠ [] := fun v hv => hws v (List.mem_cons_of_mem w hv)
    have htest : joinSep [' '] acc ++ (if (joinSep [' '] acc).isEmpty then [] else [' ']) ++ w
        = joinSep [' '] (acc ++ [w]) := by
      rw [joinSep_append_singleton hacc]
      simp [List.isEmpty_iff, hcurne, List.append_assoc]
    by_cases hlen : (joinSep [' '] (acc ++ [w])).length ≤ maxc
    · obtain ⟨c₁, chunks, h1, h2, h3⟩ :=
        ih (acc ++ [w]) (by simp) (by
          intro v hv
          rcases List.mem_append.mp hv with h | h
          · exact hne v h
          · simpa using (List.mem_singleton.mp h) ▸ hwne) hws'
      refine ⟨w :: c₁, chunks, by simpa using h1, h2, ?_⟩
      simp only [segCharsLoop, htest, hlen, if_true]
      rw [h3]
      simp [List.append_assoc]
    · obtain ⟨c₁, chunks, h1, h2, h3⟩ :=
        ih [w] (by simp) (by simpa using hwne) hws'
      refine ⟨[], (w :: c₁) :: chunks, by simpa using h1, ?_, ?_⟩
      · intro c hc
        rcases List.mem_cons.mp hc with h | h
        · subst h; simp
        · exact h2 c h
      · simp only [segCharsLoop, htest, hlen, if_false]
        have h4 : joinSep [' '] [w] = w := rfl
        rw [h4] at h3
        rw [h3]
        simp [List.isEmpty_iff, hcurne]

theorem segCharsLoop_nil_cons (maxc : ℕ) (w : Str) (ws' : List Str) :
    segCharsLoop maxc [] (w :: ws') = segCharsLoop maxc w ws' := by
  simp only [segCharsLoop, List.isEmpty_nil, if_true, List.nil_append]
  split <;> simp

theorem segment_by_chars_chunks (maxc : ℕ) (text : Str) :
    ∃ chunks : List (List Str), chunks.flatten = pyWords text ∧
      (∀ c ∈ chunks, c ≠ []) ∧
      segment_by_chars maxc text = chunks.map (joinSep [' ']) := by
  unfold segment_by_chars
  cases hpw : pyWords text with
  | nil => exact ⟨[], by simp, by simp, by simp [segCharsLoop]⟩
  | cons w ws' =>
    have hws : ∀ v ∈ w :: ws', v ≠ [] := by
      intro v hv
      have hv2 : v ∈ pyWords text := hpw ▸ hv
      exact pyWords_mem_ne_nil hv2
    obtain ⟨c₁, chunks, h1, h2, h3⟩ :=
      segCharsLoop_chunks maxc ws' [w] (by simp) (by simpa using hws w (by simp))
        (fun v hv => hws v (List.mem_cons_of_mem w hv))
    refine ⟨(w :: c₁) :: chunks, by simpa using h1, ?_, ?_⟩
    · intro c hc
      rcases List.mem_cons.mp hc with h | h
      · subst h; simp
      · exact h2 c h
    · rw [segCharsLoop_nil_cons]
      have h4 : joinSep [' '] [w] = w := rfl
      rw [h4] at h3
      rw [h3]
      simp

theorem segCharsLoop_budget (maxc : ℕ) :
    ∀ (ws : List Str) (cur : Str),
      (cur = [] ∨ cur.length ≤ maxc ∨ ∀ c ∈ cur, pyIsSpace c = false) →
      (∀ w ∈ ws, ∀ c ∈ w, pyIsSpace c = false) →
      ∀ s ∈ segCharsLoop maxc cur ws,
        s.length ≤ maxc ∨ ∀ c ∈ s, pyIsSpace c = false := by
  intro ws
  induction ws with
  | nil =>
    intro cur hcur _ s hs
    simp only [segCharsLoop] at hs
    split at hs
    · simp at hs
    · rename_i hne
      rw [List.mem_singleton] at hs
      subst hs
      rcases hcur with h | h | h
      · rw [h] at hne; simp at hne
      · exact Or.inl h
      · exact Or.inr h
  | cons w ws' ih =>
    intro cur hcur hws s hs
    have hw : ∀ c ∈ w, pyIsSpace c = false := hws w (by simp)
    have hws' : ∀ v ∈ ws', ∀ c ∈ v, pyIsSpace c = false :=
      fun v hv => hws v (List.mem_cons_of_mem w hv)
    by_cases hemp : cur = []
    · subst hemp
      rw [segCharsLoop_nil_cons] at hs
      exact ih w (Or.inr (Or.inr hw)) hws' s hs
    · simp only [segCharsLoop, List.isEmpty_iff, hemp, if_false] at hs
      split at hs
      · rename_i hlen
        exact ih _ (Or.inr (Or.inl hlen)) hws' s hs
      · rcases List.mem_append.mp hs with h | h
        · rw [List.mem_singleton] at h
          subst h
          rcases hcur with h' | h' | h'
          · exact absurd h' hemp
          · exact Or.inl h'
          · exact Or.inr h'
        · exact ih w (Or.inr (Or.inr hw)) hws' s h

theorem segment_by_chars_budget (maxc : ℕ) (text : Str) :
    ∀ s ∈ segment_by_chars maxc text,
      s.length ≤ maxc ∨ ∀ c ∈ s, pyIsSpace c = false :=
  segCharsLoop_budget maxc (pyWords text) [] (Or.inl rfl)
    (fun _ hw => pyWords_mem_noSpace hw)

theorem segment_by_chars_clean (maxc : ℕ) (text : Str) :
    ∀ s ∈ segment_by_chars maxc text, s ≠ [] ∧ pyIsTrimmed s := by
  intro s hs
  obtain ⟨chunks, h1, h2, h3⟩ := segment_by_chars_chunks maxc text
  rw [h3] at hs
  obtain ⟨c, hc, rfl⟩ := List.mem_map.mp hs
  exact joinSep_clean (h2 c hc) (by
    intro v hv
    have hvw : v ∈ pyWords text := h1 ▸ List.mem_flatten.mpr ⟨c, hc, hv⟩
    exact ⟨pyWords_mem_ne_nil hvw, pyWords_mem_noSpace hvw⟩)

theorem segment_by_chars_words (maxc : ℕ) (text : Str) :
    (segment_by_chars maxc text).flatMap pyWords = pyWords text := by
  obtain ⟨chunks, h1, h2, h3⟩ := segment_by_chars_chunks maxc text
  rw [h3, ← h1]
  have hclean : ∀ c ∈ chunks, ∀ v ∈ c, v ≠ [] ∧ ∀ d ∈ v, pyIsSpace d = false := by
    intro c hc v hv
    have hvw : v ∈ pyWords text := h1 ▸ List.mem_flatten.mpr ⟨c, hc, hv⟩
    exact ⟨pyWords_mem_ne_nil hvw, pyWords_mem_noSpace hvw⟩
  clear h1 h3
  induction chunks with
  | nil => simp
  | cons c rest ih =>
    simp only [List.map_cons, List.flatMap_cons, List.flatten_cons]
    rw [pyWords_joinSep_words (hclean c (by simp)),
      ih (fun d hd => h2 d (List.mem_cons_of_mem c hd))
        (fun d hd => hclean d (List.mem_cons_of_mem c hd))]

theorem combineLoop_zero : ∀ ps : List Str, combineLoop 0 [] ps = ps := by
  intro ps
  induction ps with
  | nil => rfl
  | cons p t ih =>
    cases t with
    | nil => simp [combineLoop]
    | cons q rest => simp [combineLoop, ih]

theorem paragraphSegments_words {cfg : StoryConfig}
    (hsent : cfg.one_sentence_per_segment = false) (p : Str) :
    (paragraphSegments cfg p).flatMap pyWords = pyWords p := by
  unfold paragraphSegments
  split
  · simp
  · rw [hsent]
    simp only [Bool.false_eq_true, if_false]
    exact segment_by_chars_words _ p

/-! ## Lemmas for the paragraph path of `segment_story` -/

theorem flatMap_filter_pyWords (l : List Str) :
    (l.filter (fun p => !p.isEmpty)).flatMap pyWords = l.flatMap pyWords := by
  induction l with
  | nil => rfl
  | cons p t ih =>
    by_cases hp : p = []
    · subst hp
      simpa [pyWords, wordsAux] using ih
    · have hkeep : List.filter (fun p => !p.isEmpty) (p :: t)
          = p :: List.filter (fun p => !p.isEmpty) t := by
        simp [List.filter_cons, List.isEmpty_iff, hp]
      rw [hkeep, List.flatMap_cons, List.flatMap_cons, ih]

theorem flatMap_map_pyStrip (l : List Str) :
    (l.map pyStrip).flatMap pyWords = l.flatMap pyWords := by
  induction l with
  | nil => rfl
  | cons p t ih =>
    simp only [List.map_cons, List.flatMap_cons, pyWords_pyStrip, ih]

theorem paragraphSegments_clean {cfg : StoryConfig}
    (hsent : cfg.one_sentence_per_segment = false) {p : Str}
    (hp : p ≠ []) (htrim : pyIsTrimmed p) :
    ∀ s ∈ paragraphSegments cfg p, s ≠ [] ∧ pyIsTrimmed s := by
  intro s hs
  unfold paragraphSegments at hs
  split at hs
  · rw [List.mem_singleton] at hs
    subst hs
    exact ⟨hp, htrim⟩
  · rw [hsent] at hs
    simp only [Bool.false_eq_true, if_false] at hs
    exact segment_by_chars_clean _ p s hs

/-! ## The coalescing loop agrees with its run-based description -/

theorem combineLoop_eq_spec (minLen : ℕ) :
    ∀ (ps run : List Str), (∀ p ∈ ps, p ≠ []) → (∀ p ∈ run, p ≠ []) →
      combineLoop minLen (joinSep [' '] run) ps = combineSpecAux minLen run ps := by
  intro ps
  induction ps with
  | nil =>
    intro run _ hrun
    by_cases hrne : run = []
    · subst hrne; rfl
    · have h1 : joinSep [' '] run ≠ [] := joinSep_ne_nil hrne hrun
      simp [combineLoop, combineSpecAux, List.isEmpty_iff, h1, hrne]
  | cons p t ih =>
    intro run hps hrun
    have hp : p ≠ [] := hps p (by simp)
    cases t with
    | nil =>
      by_cases hrne : run = []
      · subst hrne
        simp [combineLoop, combineSpecAux, joinSep]
      · have h1 : joinSep [' '] run ≠ [] := joinSep_ne_nil hrne hrun
        have h2 : joinSep [' '] (run ++ [p]) = joinSep [' '] run ++ ' ' :: p :=
          joinSep_append_singleton hrne
        simp [combineLoop, combineSpecAux, List.isEmpty_iff, h1, hrne, h2]
    | cons q rest =>
      have hq : ∀ v ∈ q :: rest, v ≠ [] := fun v hv => hps v (List.mem_cons_of_mem p hv)
      have hspec0 : combineLoop minLen [] (q :: rest) = combineSpecAux minLen [] (q :: rest) := by
        have h0 := ih [] hq (by simp)
        simpa [joinSep] using h0
      by_cases hrne : run = []
      · subst hrne
        simp only [combineLoop, combineSpecAux, joinSep, List.isEmpty_nil, if_true,
          List.nil_append]
        split
        · have h3 := ih [p] hq (by simpa using hp)
          simpa [joinSep] using h3
        · rw [hspec0]
      · have h1 : joinSep [' '] run ≠ [] := joinSep_ne_nil hrne hrun
        have h2 : joinSep [' '] (run ++ [p]) = joinSep [' '] run ++ ' ' :: p :=
          joinSep_append_singleton hrne
        simp only [combineLoop, combineSpecAux, List.isEmpty_iff, h1, hrne, if_false]
        split
        · have h3 := ih (run ++ [p]) hq (by
            intro v hv
            rcases List.mem_append.mp hv with h | h
            · exact hrun v h
            · rw [List.mem_singleton] at h; subst h; exact hp)
          rw [← h2]
          exact h3
        · rw [hspec0]

/-! ## Claim theorems -/

/-- Claim C1: for every margin configuration with `safe_bottom > safe_top`
and `safe_right > safe_left`, every text block whose height is at most the
safe height and whose width is at most the safe width, and every
`position_factor` in `[0, 1]`, `position_text_in_tiktok_safe_area` returns
coordinates with `safe_top ≤ y`, `y + block_height ≤ safe_bottom`,
`safe_left ≤ x` and `x + block_width ≤ safe_right`. -/
theorem position_in_safe_area (textW textH : ℤ) (m : TikTokMargins)
    (resW resH : ℤ) (factor : ℚ)
    (htb : m.top < resH - m.bottom)
    (hlr : m.left < resW - m.right)
    (hh : textH ≤ (resH - m.bottom) - m.top)
    (hw : textW ≤ (resW - m.right) - m.left)
    (hf0 : 0 ≤ factor) (hf1 : factor ≤ 1) :
    m.top ≤ (position_text_in_tiktok_safe_area textW textH m resW resH factor).2 ∧
    (position_text_in_tiktok_safe_area textW textH m resW resH factor).2 + textH
      ≤ resH - m.bottom ∧
    ((m.left : ℤ) : ℚ) ≤ (position_text_in_tiktok_safe_area textW textH m resW resH factor).1 ∧
    (position_text_in_tiktok_safe_area textW textH m resW resH factor).1 + (textW : ℚ)
      ≤ ((resW - m.right : ℤ) : ℚ) := by
  unfold position_text_in_tiktok_safe_area
  simp only
  have hwq : (textW : ℚ) ≤ ((resW - m.right : ℤ) : ℚ) - ((m.left : ℤ) : ℚ) := by
    rw [← Int.cast_sub]
    exact_mod_cast hw
  refine ⟨?_, ?_, ?_, ?_⟩
  · refine le_min (by omega) (le_max_left _ _)
  · have h1 := min_le_left (resH - m.bottom - textH) (max m.top
      (pyTrunc ((m.top : ℚ) + ((resH - m.bottom - m.top : ℤ) : ℚ) * factor)))
    omega
  · have h2 : (0 : ℚ) ≤ (((resW - m.right - m.left : ℤ) : ℚ) - (textW : ℚ)) / 2 := by
      push_cast at hwq ⊢
      linarith
    push_cast at h2 ⊢
    linarith
  · push_cast at hwq ⊢
    linarith

/-- Witness for C1, at the margins, frame and block of the spec's own
scenario (with the block width 720 that fits the 720-pixel safe width). -/
theorem position_in_safe_area_witness :
    (252 : ℤ) ≤ (position_text_in_tiktok_safe_area 720 150 ⟨252, 640, 120, 240⟩
        1080 1920 ((9 : ℚ)/10)).2 ∧
    (position_text_in_tiktok_safe_area 720 150 ⟨252, 640, 120, 240⟩
        1080 1920 ((9 : ℚ)/10)).2 + 150 ≤ 1920 - 640 ∧
    ((120 : ℤ) : ℚ) ≤ (position_text_in_tiktok_safe_area 720 150 ⟨252, 640, 120, 240⟩
        1080 1920 ((9 : ℚ)/10)).1 ∧
    (position_text_in_tiktok_safe_area 720 150 ⟨252, 640, 120, 240⟩
        1080 1920 ((9 : ℚ)/10)).1 + (720 : ℚ) ≤ (((1080 - 240 : ℤ)) : ℚ) :=
  position_in_safe_area 720 150 ⟨252, 640, 120, 240⟩ 1080 1920 ((9 : ℚ)/10)
    (by norm_num) (by norm_num) (by norm_num) (by norm_num) (by norm_num) (by norm_num)

/-- Claim C5: for every segment text, `words_per_minute > 0` and
`min_duration ≤ max_duration`, `calculate_segment_duration` returns
`clamp(word_count / words_per_minute * 60, min_duration, max_duration)`,
and the result lies within `[min_duration, max_duration]`. -/
theorem calculate_segment_duration_clamp (wpm minD maxD : ℚ) (s : Str)
    (hwpm : 0 < wpm) (hdur : minD ≤ maxD) :
    calculate_segment_duration wpm minD maxD s
      = max minD (min (((pyWords s).length : ℚ) / wpm * 60) maxD) ∧
    minD ≤ calculate_segment_duration wpm minD maxD s ∧
    calculate_segment_duration wpm minD maxD s ≤ maxD := by
  refine ⟨rfl, le_max_left _ _, ?_⟩
  exact max_le hdur (min_le_right _ _)

/-- Witness for C5, at the spec's scenario: 3 words at 180 wpm with
bounds `[1, 8]`. -/
theorem calculate_segment_duration_clamp_witness :
    calculate_segment_duration 180 1 8 (("one two three").data)
      = max 1 (min (((pyWords (("one two three").data)).length : ℚ) / 180 * 60) 8) ∧
    (1 : ℚ) ≤ calculate_segment_duration 180 1 8 (("one two three").data) ∧
    calculate_segment_duration 180 1 8 (("one two three").data) ≤ 8 :=
  calculate_segment_duration_clamp 180 1 8 (("one two three").data)
    (by norm_num) (by norm_num)

/-- Claim C10: for fixed `words_per_minute > 0` and
`min_duration ≤ max_duration`, the computed duration is monotone
non-decreasing in the number of whitespace-delimited words. -/
theorem calculate_segment_duration_monotone (wpm minD maxD : ℚ) (s1 s2 : Str)
    (hwpm : 0 < wpm) (hdur : minD ≤ maxD)
    (hle : (pyWords s1).length ≤ (pyWords s2).length) :
    calculate_segment_duration wpm minD maxD s1
      ≤ calculate_segment_duration wpm minD maxD s2 := by
  unfold calculate_segment_duration
  have h1 : ((pyWords s1).length : ℚ) ≤ ((pyWords s2).length : ℚ) := by exact_mod_cast hle
  have h2 : ((pyWords s1).length : ℚ) / wpm * 60 ≤ ((pyWords s2).length : ℚ) / wpm * 60 := by
    have h3 := (div_le_div_iff_of_pos_right hwpm).mpr h1
    nlinarith
  exact max_le_max le_rfl (min_le_min h2 le_rfl)

/-- Witness for C10: one word versus two words at 180 wpm. -/
theorem calculate_segment_duration_monotone_witness :
    calculate_segment_duration 180 1 8 (("one").data)
      ≤ calculate_segment_duration 180 1 8 (("one two").data) :=
  calculate_segment_duration_monotone 180 1 8 (("one").data) (("one two").data)
    (by norm_num) (by norm_num) (by decide)

/-- Claim C9: whenever the title height plus the inter-block spacing plus
the content height (plus shadow offset) exceeds the safe height, the body
font size is reduced exactly once by the factor
`max(0.8, 1.0 - 0.5 * (excess / safe_height))`, floored at the fixed
minimum font size 45, and the shrink is not iterated: the returned total
height is obtained from a single re-measure at the new size, whether or
not it still exceeds the safe height. -/
theorem adjust_content_fontsize_single_pass (measure : ℤ → ℤ)
    (titleHeight shadowOffset shadowOffset2 titleFontsize bodyFontsize safeHeight : ℤ)
    (hover : safeHeight <
      titleHeight + contentSpacingOf titleFontsize + measure bodyFontsize + shadowOffset) :
    adjust_content_fontsize measure titleHeight shadowOffset shadowOffset2
        titleFontsize bodyFontsize safeHeight
      = (claimedAdjustedFontsize bodyFontsize
          (titleHeight + contentSpacingOf titleFontsize + measure bodyFontsize + shadowOffset)
          safeHeight,
         titleHeight + contentSpacingOf titleFontsize
           + measure (claimedAdjustedFontsize bodyFontsize
               (titleHeight + contentSpacingOf titleFontsize + measure bodyFontsize + shadowOffset)
               safeHeight)
           + shadowOffset2) := by
  have hcond : (safeHeight : ℚ) * 1 <
      ((titleHeight + contentSpacingOf titleFontsize + measure bodyFontsize + shadowOffset : ℤ) : ℚ) := by
    rw [mul_one]
    exact_mod_cast hover
  have harg : (1 : ℚ) - ((5 : ℚ) / 10) *
        (((titleHeight + contentSpacingOf titleFontsize + measure bodyFontsize + shadowOffset : ℤ) : ℚ)
          - (safeHeight : ℚ) * 1) / ((safeHeight : ℚ) * 1)
      = 1 - ((5 : ℚ) / 10) *
        (((titleHeight + contentSpacingOf titleFontsize + measure bodyFontsize + shadowOffset
            - safeHeight : ℤ) : ℚ) / (safeHeight : ℚ)) := by
    push_cast
    ring
  simp only [adjust_content_fontsize, claimedAdjustedFontsize, hcond, if_true]
  rw [harg]

/-- Witness for C9: a 300-pixel title, 80-point title font (spacing 100),
constant 900-pixel content measurement, shadow offsets 3 and 2, and a
1028-pixel safe height; the overflowing card's body font shrinks from 58
to 50 in a single pass. -/
theorem adjust_content_fontsize_single_pass_witness :
    adjust_content_fontsize (fun _ => 900) 300 3 2 80 58 1028
      = (claimedAdjustedFontsize 58 (300 + contentSpacingOf 80 + 900 + 3) 1028,
         300 + contentSpacingOf 80 + 900 + 2) :=
  adjust_content_fontsize_single_pass (fun _ => 900) 300 3 2 80 58 1028
    (by norm_num [contentSpacingOf, pyTrunc, max_def])

/-- Claim C4: the char-budget strategy emits segments that are
space-joins of consecutive nonempty runs of the whitespace-delimited
words of the input, in order (so no word is ever split mid-word), and
every emitted segment either fits the budget or contains no whitespace
at all (a single oversized word). -/
theorem segment_by_chars_greedy (maxChars : ℕ) (text : Str) :
    (∃ chunks : List (List Str), chunks.flatten = pyWords text ∧
      (∀ c ∈ chunks, c ≠ []) ∧
      segment_by_chars maxChars text = chunks.map (joinSep [' '])) ∧
    ∀ s ∈ segment_by_chars maxChars text,
      s.length ≤ maxChars ∨ ∀ c ∈ s, pyIsSpace c = false :=
  ⟨segment_by_chars_chunks maxChars text, segment_by_chars_budget maxChars text⟩

/-- Counterexample to claim C2: with `minimum_segment_length = 10`, the
too-short first paragraph `"ab"` of `"ab\ncdefghijklmnop"` is not merged
(space-concatenated) with the next paragraph; it is emitted as its own
segment, shorter than the minimum, even though it has a neighbor. -/
theorem coalesce_not_merged_with_next :
    segment_story ⟨true, false, 10, 200⟩ (("ab\ncdefghijklmnop").data)
      = [("ab").data, ("cdefghijklmnop").data] ∧
    (("ab").data : Str).length < 10 := by decide

/-- Claim C2 (amended): the coalescing pass joins each maximal run of
consecutive too-short paragraphs with single spaces; a run followed by a
long-enough paragraph is emitted as its own segment immediately before
that paragraph rather than merged into it; a too-short final paragraph
joins the preceding run when one exists — and the combined run is then
emitted twice because the accumulator is not reset — otherwise it is
emitted as-is.  Consequently segments shorter than
`minimum_segment_length` can be emitted even when neighbors exist. -/
theorem combine_short_paragraphs_eq_spec (minLen : ℕ) (ps : List Str)
    (hne : ∀ p ∈ ps, p ≠ []) :
    combine_short_paragraphs minLen ps = combineShortSpec minLen ps := by
  have h := combineLoop_eq_spec minLen ps [] hne (by simp)
  simpa [combine_short_paragraphs, combineShortSpec, joinSep] using h

/-- Witness for the amended C2, on a run of two short paragraphs ending
the input (the case in which the combined run is emitted twice). -/
theorem combine_short_paragraphs_eq_spec_witness :
    (∀ p ∈ [("abc").data, ("de").data], p ≠ ([] : Str)) ∧
    combine_short_paragraphs 10 [("abc").data, ("de").data]
      = combineShortSpec 10 [("abc").data, ("de").data] :=
  ⟨by decide, combine_short_paragraphs_eq_spec 10 [("abc").data, ("de").data] (by decide)⟩

/-- Counterexample to claim C3: on the spec's own scenario input the
segmenter does not return `["Hello world.", "This is short. Final
paragraph here to close."]` — the 12-character first paragraph is also
below the 20-character minimum, so it is coalesced with the second
paragraph instead of standing alone. -/
theorem segment_story_scenario_counterexample :
    segment_story ⟨true, false, 20, 200⟩
        (("Hello world.\nThis is short.\nFinal paragraph here to close.").data)
      ≠ [("Hello world.").data,
         ("This is short. Final paragraph here to close.").data] := by decide

/-- Claim C3 (amended): on the scenario input with
`use_paragraphs_as_segments = true`, `minimum_segment_length = 20` and
`max_chars_per_segment = 200`, the segmenter returns exactly the two
segments `"Hello world. This is short."` (the coalesced run of the two
short paragraphs, flushed before the long final paragraph) and
`"Final paragraph here to close."`, in that order. -/
theorem segment_story_scenario_actual :
    segment_story ⟨true, false, 20, 200⟩
        (("Hello world.\nThis is short.\nFinal paragraph here to close.").data)
      = [("Hello world. This is short.").data,
         ("Final paragraph here to close.").data] := by decide

/-- Counterexample to claim C6: with `minimum_segment_length = 10`, the
input `"abc\nde"` (two short paragraphs, the last one closing a run)
produces the segment `"abc de"` twice — the emitted segments do not
concatenate back to the input modulo whitespace normalization. -/
theorem segment_story_roundtrip_counterexample :
    segment_story ⟨true, false, 10, 200⟩ (("abc\nde").data)
      = [("abc de").data, ("abc de").data] ∧
    (segment_story ⟨true, false, 10, 200⟩ (("abc\nde").data)).flatMap pyWords
      ≠ pyWords (("abc\nde").data) := by decide

/-- Claim C6 (amended): for every non-empty input, in configurations
where the sentence strategy is off and the short-paragraph coalescing
pass is inactive (`minimum_segment_length = 0`, excluding the
double-emission of a coalesced run), every returned segment is non-empty
and trimmed, and the concatenation of the returned segments preserves
the whitespace-delimited words of the input in order (equivalence modulo
whitespace normalization). -/
theorem segment_story_trimmed_roundtrip (cfg : StoryConfig) (text : Str)
    (hsent : cfg.one_sentence_per_segment = false)
    (hmin : cfg.minimum_segment_length = 0)
    (htext : text ≠ []) :
    (∀ s ∈ segment_story cfg text, s ≠ [] ∧ pyIsTrimmed s) ∧
    (segment_story cfg text).flatMap pyWords = pyWords text := by
  by_cases hpath : cfg.use_paragraphs_as_segments ∧ '\n' ∈ text
  · have hseg : segment_story cfg text
        = (((splitChar '\n' (replaceNlNl text)).map pyStrip).filter
            (fun p => !p.isEmpty)).flatMap (paragraphSegments cfg) := by
      simp only [segment_story, combine_short_paragraphs]
      rw [if_pos hpath, hmin, combineLoop_zero]
    rw [hseg]
    constructor
    · intro s hs
      obtain ⟨p, hp, hsp⟩ := List.mem_flatMap.mp hs
      have hp2 := List.mem_filter.mp hp
      obtain ⟨orig, _, heq⟩ := List.mem_map.mp hp2.1
      have hpne : p ≠ [] := by
        intro h
        rw [h] at hp2
        simp at hp2
      rw [← heq] at hpne hsp
      exact paragraphSegments_clean hsent hpne (pyStrip_trimmed orig) s hsp
    · rw [List.flatMap_assoc]
      simp only [paragraphSegments_words hsent]
      rw [flatMap_filter_pyWords, flatMap_map_pyStrip,
        flatMap_pyWords_splitChar (by decide), pyWords_replaceNlNl]
  · have hseg : segment_story cfg text = segment_by_chars cfg.max_chars_per_segment text := by
      simp only [segment_story]
      rw [if_neg hpath]
      simp [hsent]
    rw [hseg]
    exact ⟨segment_by_chars_clean _ text, segment_by_chars_words _ text⟩

/-- Witness for the amended C6, on a two-paragraph input. -/
theorem segment_story_trimmed_roundtrip_witness :
    (∀ s ∈ segment_story ⟨true, false, 0, 10⟩ (("hi\nthere people").data),
      s ≠ [] ∧ pyIsTrimmed s) ∧
    (segment_story ⟨true, false, 0, 10⟩ (("hi\nthere people").data)).flatMap pyWords
      = pyWords (("hi\nthere people").data) :=
  segment_story_trimmed_roundtrip ⟨true, false, 0, 10⟩ (("hi\nthere people").data)
    rfl rfl (by decide)

/-- Counterexample to claim C7: with `max_chars_per_segment = 5`, the
6-character single-word paragraphs of `"aaaaaa\nbbbbbb"` are one
character over the budget, yet each comes back as a single (oversized)
segment — not more than one. -/
theorem paragraph_boundary_counterexample :
    segment_story ⟨true, false, 0, 5⟩ (("aaaaaa\nbbbbbb").data)
      = [("aaaaaa").data, ("bbbbbb").data] ∧
    (("aaaaaa").data : Str).length = 5 + 1 := by decide

/-- Claim C7 (amended): a paragraph of length exactly
`max_chars_per_segment` is kept as a single segment (not split); a
paragraph one character longer is handed to the char-budget
re-segmentation, which produces more than one segment provided the
paragraph has at least two words and its words joined by single spaces
still exceed the budget; a single-word (or whitespace-compressible)
paragraph can come back as one oversized segment. -/
theorem paragraph_boundary_amended (cfg : StoryConfig) (p : Str)
    (hsent : cfg.one_sentence_per_segment = false) :
    (p.length ≤ cfg.max_chars_per_segment → paragraphSegments cfg p = [p]) ∧
    (p.length = cfg.max_chars_per_segment + 1 →
      2 ≤ (pyWords p).length →
      cfg.max_chars_per_segment < (joinSep [' '] (pyWords p)).length →
      2 ≤ (paragraphSegments cfg p).length) := by
  constructor
  · intro hle
    unfold paragraphSegments
    rw [if_pos hle]
  · intro hlen hwords hjoin
    unfold paragraphSegments
    rw [if_neg (by omega), hsent]
    simp only [Bool.false_eq_true, if_false]
    obtain ⟨chunks, h1, h2, h3⟩ := segment_by_chars_chunks cfg.max_chars_per_segment p
    rw [h3]
    rcases chunks with _ | ⟨c, rest⟩
    · rw [List.flatten_nil] at h1
      rw [← h1] at hwords
      simp at hwords
    · rcases rest with _ | ⟨c2, rest2⟩
      · exfalso
        have hc : c = pyWords p := by simpa using h1
        have hmem : joinSep [' '] c ∈ segment_by_chars cfg.max_chars_per_segment p := by
          rw [h3]
          simp
        have hb := segment_by_chars_budget cfg.max_chars_per_segment p (joinSep [' '] c) hmem
        rcases hb with hb | hb
        · rw [hc] at hb
          omega
        · obtain ⟨w1, w2, t, hw⟩ : ∃ w1 w2 t, pyWords p = w1 :: w2 :: t := by
            rcases hpw : pyWords p with _ | ⟨w1, rest'⟩
            · rw [hpw] at hwords; simp at hwords
            · rcases rest' with _ | ⟨w2, t⟩
              · rw [hpw] at hwords; simp at hwords
              · exact ⟨w1, w2, t, rfl⟩
          have hsp : ' ' ∈ joinSep [' '] c := by
            rw [hc, hw]
            simp [joinSep]
          exact absurd (hb ' ' hsp) (by decide)
      · simp only [List.map_cons, List.length_cons]
        omega

/-- Witness for the amended C7: with budget 5, the 5-character paragraph
`"ab cd"` is kept whole while the 6-character two-word paragraph
`"abc de"` is split into two segments. -/
theorem paragraph_boundary_amended_witness :
    paragraphSegments ⟨true, false, 0, 5⟩ (("ab cd").data) = [("ab cd").data] ∧
    2 ≤ (paragraphSegments ⟨true, false, 0, 5⟩ (("abc de").data)).length :=
  ⟨(paragraph_boundary_amended ⟨true, false, 0, 5⟩ (("ab cd").data) rfl).1 (by decide),
   (paragraph_boundary_amended ⟨true, false, 0, 5⟩ (("abc de").data) rfl).2
     (by decide) (by decide) (by decide)⟩

/-- Counterexample to claim C8: with `one_sentence_per_segment = true`,
the empty input yields the single empty segment `[""]` (via
`re.split`, which returns `['']` on the empty string), not the empty
sequence. -/
theorem segment_story_empty_counterexample :
    segment_story ⟨true, true, 0, 200⟩ ([] : Str) = [([] : Str)] ∧
    segment_story ⟨true, true, 0, 200⟩ ([] : Str) ≠ [] := by decide

/-- Claim C8 (amended): on empty or whitespace-only input the segmenter
returns the empty sequence whenever the char-budget strategy applies
(`one_sentence_per_segment = false`) or the paragraph path applies
(`use_paragraphs_as_segments = true` and the input contains a newline);
with the sentence strategy and no applicable paragraph split, a single
whitespace-only segment is returned instead.  (The function is total, so
no error is raised in any case.) -/
theorem segment_story_whitespace_empty (cfg : StoryConfig) (text : Str)
    (hws : ∀ c ∈ text, pyIsSpace c = true)
    (hcase : cfg.one_sentence_per_segment = false ∨
      (cfg.use_paragraphs_as_segments = true ∧ '\n' ∈ text)) :
    segment_story cfg text = [] := by
  by_cases hpath : cfg.use_paragraphs_as_segments ∧ '\n' ∈ text
  · have hfilter : ((splitChar '\n' (replaceNlNl text)).map pyStrip).filter
        (fun p => !p.isEmpty) = [] := by
      rw [List.filter_eq_nil_iff]
      intro p hp
      obtain ⟨orig, horig, heq⟩ := List.mem_map.mp hp
      have hallws : ∀ c ∈ orig, pyIsSpace c = true := fun c hc =>
        hws c (mem_replaceNlNl (mem_splitChar horig hc))
      rw [← heq, pyStrip_all_space hallws]
      simp
    simp only [segment_story, combine_short_paragraphs]
    rw [if_pos hpath, hfilter]
    rfl
  · have hsent : cfg.one_sentence_per_segment = false := by
      rcases hcase with h | h
      · exact h
      · exact absurd ⟨h.1, h.2⟩ hpath
    have hwords : pyWords text = [] := pyWords_all_space hws
    simp only [segment_story]
    rw [if_neg hpath]
    simp only [hsent, Bool.false_eq_true, if_false, segment_by_chars, hwords]
    rfl

/-- Witness for the amended C8: a whitespace-only input containing a
newline, under the default-style configuration with the sentence
strategy on (the paragraph path still applies and returns no segments). -/
theorem segment_story_whitespace_empty_witness :
    (∀ c ∈ ((" \n ").data : Str), pyIsSpace c = true) ∧
    segment_story ⟨true, true, 130, 500⟩ ((" \n ").data) = [] :=
  ⟨by decide, segment_story_whitespace_empty ⟨true, true, 130, 500⟩ ((" \n ").data)
    (by decide) (Or.inr ⟨rfl, by decide⟩)⟩
